import Mathlib

/-!
Verification development for the `cs2_analytics.data_io` package
(layout resolution in `demos.py`, dataset indexing in `indexing.py`).

The Python code is shallowly embedded:

* filesystem paths are lists of path segments;
* a Polars dataframe is a `Frame`: a list of named, typed columns whose
  cells are `Value`s (`null`, integer, or string — the cell kinds the
  indexing code distinguishes);
* the mutable-directory side effects of `ProcessedLayout` are explicit
  state passing over `DirState`, the set of directories that exist;
* Python `dict` assignment (insertion order kept, assignment to an
  existing key replaces in place) is `dictInsert` on association lists;
* `hashlib.blake2b(encoded, digest_size=8, person=bytes([salt]))` read as
  a big-endian integer is abstracted as a parameter
  `hash : String → Nat → Nat` (string form of the value, salt); every
  theorem about the bloom filters holds for an arbitrary such function,
  in particular for BLAKE2b;
* `datetime.now(tz=timezone.utc).isoformat()` is an explicit `now : String`
  parameter.
-/

namespace CS2

/-! ### Generic list helpers: python `sorted` and `dict` -/

/-- Insert `a` into `l` in front of the first element `b` with `le a b = true`
(the insertion step of a stable sort, modelling python `sorted`). -/
def insertLe (le : α → α → Bool) (a : α) : List α → List α
  | [] => [a]
  | b :: bs => if le a b then a :: b :: bs else b :: insertLe le a bs

/-- Stable insertion sort by a boolean relation, modelling python `sorted`. -/
def sortLe (le : α → α → Bool) : List α → List α
  | [] => []
  | a :: as => insertLe le a (sortLe le as)

/-- Python `dict` assignment `d[k] = v` on an insertion-ordered association
list: an existing binding of `k` is replaced in place, otherwise the new
binding is appended at the end. -/
def dictInsert [DecidableEq κ] (k : κ) (v : α) : List (κ × α) → List (κ × α)
  | [] => [(k, v)]
  | (k', v') :: rest => if k' = k then (k, v) :: rest else (k', v') :: dictInsert k v rest

/-- Python `dict` lookup on an association list (keys are unique in every
dict this development builds, so first match is the binding). -/
def dictFind? [DecidableEq κ] (d : List (κ × α)) (k : κ) : Option α :=
  (d.find? (fun p => p.1 = k)).map (·.2)

/-- Lexicographic `≤` on character lists (python string comparison). -/
def charListLe : List Char → List Char → Bool
  | [], _ => true
  | _ :: _, [] => false
  | a :: as, b :: bs => if a < b then true else if b < a then false else charListLe as bs

/-- Python string `<=` (lexicographic on code points). -/
def strLe (a b : String) : Bool := charListLe a.data b.data

/-! ### Cell values and dataframe model -/

/-- One dataframe cell: the value kinds the indexing code distinguishes.
Null cells matter to `drop_nulls` and to grouping; integers and strings
cover the columns the indexer hashes, groups and aggregates. -/
inductive Value where
  | null : Value
  | int (n : Int) : Value
  | str (s : String) : Value
deriving DecidableEq, Repr

/-- Python `str(value)` for the values a bloom filter hashes. -/
def Value.toStr : Value → String
  | .null => "None"
  | .int n => toString n
  | .str s => s

/-- Ordering used by `DataFrame.sort` on a key column: nulls first
(polars default `nulls_last=False`), then by value. Integer and string
cells never share a column (polars columns are homogeneous); the
cross-kind case is fixed arbitrarily. -/
def Value.le : Value → Value → Bool
  | .null, _ => true
  | _, .null => false
  | .int a, .int b => decide (a ≤ b)
  | .int _, .str _ => true
  | .str _, .int _ => false
  | .str a, .str b => strLe a b

/-- Polars column dtypes occurring in the model. -/
inductive Dtype where
  | int64 : Dtype
  | string : Dtype
deriving DecidableEq, Repr

/-- Model of `str(dtype)` as polars prints it. -/
def Dtype.toStr : Dtype → String
  | .int64 => "Int64"
  | .string => "String"

/-- Model of `dtype.is_numeric()`. -/
def Dtype.isNumeric : Dtype → Bool
  | .int64 => true
  | .string => false

/-- One named, typed dataframe column. -/
structure Column where
  name : String
  dtype : Dtype
  values : List Value
deriving DecidableEq, Repr

/-- A Polars dataframe: an ordered list of columns. Polars guarantees all
columns have the same length (`Frame.WF`). -/
structure Frame where
  columns : List Column
deriving DecidableEq, Repr

/-- Model of `frame.height` (row count): the common column length. -/
def Frame.height (f : Frame) : Nat :=
  match f.columns with
  | [] => 0
  | c :: _ => c.values.length

/-- The frame invariant polars maintains: every column has `height` rows. -/
def Frame.WF (f : Frame) : Prop :=
  ∀ c ∈ f.columns, c.values.length = f.height

/-- Model of `frame.columns` (the column names). -/
def Frame.colNames (f : Frame) : List String :=
  f.columns.map (·.name)

/-- Column lookup `frame[name]` (names are unique in a polars frame). -/
def Frame.getCol (f : Frame) (name : String) : Option Column :=
  f.columns.find? (fun c => c.name = name)

/-- The cells of column `name`, `[]` when absent (the indexing code only
reads columns it has checked are present). -/
def Frame.colValues (f : Frame) (name : String) : List Value :=
  match f.getCol name with
  | some c => c.values
  | none => []

/-! ### `IndexingStrategy` (`indexing.py` lines 31–51) -/

/-- Configuration for building dataset indices and bloom filters
(`IndexingStrategy`). The python `dict[str, Sequence[str]]` fields are
association lists with unique keys. -/
structure IndexingStrategy where
  offset_columns : List (String × List String) := []
  bloom_filter_columns : List (String × List String) := []
  numeric_statistics : Bool := true
deriving DecidableEq, Repr

/-- Model of `IndexingStrategy._merged`: the wildcard entry's columns followed by the
per-table entry's columns (a union of both lists, not an override). -/
def IndexingStrategy.merged (tableName : String) (mapping : List (String × List String)) : List String :=
  (match dictFind? mapping "*" with
   | some cs => cs
   | none => []) ++
  (match dictFind? mapping tableName with
   | some cs => cs
   | none => [])

/-- Model of `IndexingStrategy.offsets_for`. -/
def IndexingStrategy.offsetsFor (s : IndexingStrategy) (tableName : String) : List String :=
  IndexingStrategy.merged tableName s.offset_columns

/-- Model of `IndexingStrategy.blooms_for`. -/
def IndexingStrategy.bloomsFor (s : IndexingStrategy) (tableName : String) : List String :=
  IndexingStrategy.merged tableName s.bloom_filter_columns

/-! ### Offset index (`DatasetIndexer._build_offset_index`, lines 144–159) -/

/-- One serialized offset-index entry `{"value": ..., "positions": [...]}`. -/
structure OffsetEntry where
  value : Value
  positions : List Nat
deriving DecidableEq, Repr

/-- Row positions of value `v` in the column cells `vals`, in ascending row
order: the `row_number` list `group_by(column).agg(pl.col("row_number"))`
aggregates for the group keyed by `v` (aggregation preserves row order). -/
def positionsOf (v : Value) (vals : List Value) : List Nat :=
  (List.range vals.length).filter (fun i => vals.getD i .null = v)

/-- The distinct cell values of a column (the group keys of
`group_by(column)`); order is irrelevant because the groups are sorted
by key next. -/
def distinctValues (vals : List Value) : List Value :=
  vals.dedup

/-- The offset-index entries for one column:
`group_by(column).agg(pl.col("row_number")).sort(column)` — one entry per
distinct value with its row positions, sorted by value ascending. -/
def groupPositions (vals : List Value) : List OffsetEntry :=
  (sortLe Value.le (distinctValues vals)).map (fun v => ⟨v, positionsOf v vals⟩)

/-- The shared loop shape of `_build_offset_index` and
`_build_bloom_filters`: a python dict built by assigning `f c` under key
`c` for each column `c` in turn. -/
def buildDict (f : String → α) (cols : List String) (init : List (String × α)) :
    List (String × α) :=
  cols.foldl (fun result c => dictInsert c (f c) result) init

/-- Model of `DatasetIndexer._build_offset_index`: one entry list per configured
column present in the frame; `result[column] = entries` is python dict
assignment, so a column listed twice (wildcard and per-table) keeps a
single binding. -/
def buildOffsetIndex (strategy : IndexingStrategy) (frame : Frame) (tableName : String) :
    List (String × List OffsetEntry) :=
  let columns := (strategy.offsetsFor tableName).filter (fun c => c ∈ frame.colNames)
  buildDict (fun c => groupPositions (frame.colValues c)) columns []

/-! ### Bloom filters (`DatasetIndexer._build_bloom_filters` and
`_create_bloom_filter`, lines 161–192) -/

/-- Serialized bloom filter `{"num_bits": ..., "hash_count": ..., "set_bits": [...]}`. -/
structure BloomFilter where
  num_bits : Nat
  hash_count : Nat
  set_bits : List Nat
deriving DecidableEq, Repr

/-- Default `num_bits` of `_create_bloom_filter`. -/
def defaultNumBits : Nat := 2048

/-- Default `hash_count` of `_create_bloom_filter`. -/
def defaultHashCount : Nat := 3

/-- The mutable `bitset` array after the two nested loops of
`_create_bloom_filter`, as its read function: for every value and every
`salt in range(hash_count)`, the bit `hash(str(value), salt) % num_bits`
is set. `hash` abstracts reading the salted BLAKE2b digest as a
big-endian integer. -/
def bloomBits (hash : String → Nat → Nat) (values : List Value) (numBits hashCount : Nat) :
    Nat → Bool :=
  values.foldl
    (fun bits v =>
      (List.range hashCount).foldl
        (fun bits salt =>
          fun j => if j = hash (Value.toStr v) salt % numBits then true else bits j)
        bits)
    (fun _ => false)

/-- Model of `DatasetIndexer._create_bloom_filter`: `set_bits` enumerates the set
positions of the bit array in ascending index order. -/
def createBloomFilter (hash : String → Nat → Nat) (values : List Value)
    (numBits hashCount : Nat) : BloomFilter :=
  { num_bits := numBits
    hash_count := hashCount
    set_bits := (List.range numBits).filter (bloomBits hash values numBits hashCount) }

/-- Model of `series.drop_nulls()` on a column's cells. -/
def dropNulls (vals : List Value) : List Value :=
  vals.filter (fun v => v ≠ .null)

/-- Model of `DatasetIndexer._build_bloom_filters`: one filter per configured column
present in the frame, built from the column's non-null values with the
default parameters; dict assignment as in the offset index. -/
def buildBloomFilters (hash : String → Nat → Nat) (strategy : IndexingStrategy)
    (frame : Frame) (tableName : String) : List (String × BloomFilter) :=
  let columns := (strategy.bloomsFor tableName).filter (fun c => c ∈ frame.colNames)
  buildDict
    (fun c => createBloomFilter hash (dropNulls (frame.colValues c)) defaultNumBits defaultHashCount)
    columns []

/-! ### `ProcessedLayout` (`demos.py` lines 47–76)

Paths are lists of segments. `DirState` is the set of directories that
exist on the filesystem; `path.mkdir(parents=True, exist_ok=True)` adds
every prefix of the path. Methods that call `mkdir` are state-passing. -/

/-- The set of directories existing on the filesystem. -/
abbrev DirState := List (List String)

/-- All nonempty prefixes of a path: the directories
`mkdir(parents=True)` brings into existence. -/
def prefixesOf (p : List String) : List (List String) :=
  (List.range p.length).map (fun i => p.take (i + 1))

/-- Model of `path.mkdir(parents=True, exist_ok=True)`: create the path and its
missing ancestors. -/
def mkdirParents (s : DirState) (p : List String) : DirState :=
  (prefixesOf p).foldl (fun s q => if q ∈ s then s else s ++ [q]) s

/-- Model of `ProcessedLayout` (a frozen dataclass). -/
structure ProcessedLayout where
  root : List String
  tables_dirname : String
  metadata_filename : String
  manifest_filename : String
deriving DecidableEq, Repr

/-- Model of `ProcessedLayout(root)` with the dataclass field defaults. -/
def mkLayout (root : List String) : ProcessedLayout :=
  ⟨root, "tables", "metadata.json", "manifest.json"⟩

/-- The path `root/stem` that `demo_dir` returns. -/
def ProcessedLayout.demoDirPath (L : ProcessedLayout) (stem : String) : List String :=
  L.root ++ [stem]

/-- The path `root/stem/tables` that `tables_dir` returns. -/
def ProcessedLayout.tablesDirPath (L : ProcessedLayout) (stem : String) : List String :=
  L.demoDirPath stem ++ [L.tables_dirname]

/-- The path `root/stem/tables/name.parquet` that `table_path` returns. -/
def ProcessedLayout.tablePathOf (L : ProcessedLayout) (stem tableName : String) : List String :=
  L.tablesDirPath stem ++ [tableName ++ ".parquet"]

/-- The path `root/stem/metadata.json` that `metadata_path` returns. -/
def ProcessedLayout.metadataPathOf (L : ProcessedLayout) (stem : String) : List String :=
  L.demoDirPath stem ++ [L.metadata_filename]

/-- Model of `manifest_path()`: `root/manifest.json`, no directory creation. -/
def ProcessedLayout.manifestPath (L : ProcessedLayout) : List String :=
  L.root ++ [L.manifest_filename]

/-- Modelled from the spec: `ProcessedLayout.global_manifest_path` is called
by `DatasetIndexer.write_manifest` and asserted on by
`test_write_manifest_persists_file`, but its definition is absent from the
source tree; the spec fixes it as `root/_manifest.json`, with no directory
creation. -/
def ProcessedLayout.globalManifestPath (L : ProcessedLayout) : List String :=
  L.root ++ ["_manifest.json"]

/-- Model of `ensure_root()`: `root.mkdir(parents=True, exist_ok=True)`. -/
def ProcessedLayout.ensureRoot (L : ProcessedLayout) (s : DirState) : DirState :=
  mkdirParents s L.root

/-- Model of `demo_dir(stem)`: returns `root/stem` after creating it (and parents). -/
def ProcessedLayout.demoDir (L : ProcessedLayout) (s : DirState) (stem : String) :
    List String × DirState :=
  (L.demoDirPath stem, mkdirParents s (L.demoDirPath stem))

/-- Model of `tables_dir(stem)`: `demo_dir(stem)/tables`, created (and parents). -/
def ProcessedLayout.tablesDir (L : ProcessedLayout) (s : DirState) (stem : String) :
    List String × DirState :=
  let r := L.demoDir s stem
  (r.1 ++ [L.tables_dirname], mkdirParents r.2 (r.1 ++ [L.tables_dirname]))

/-- Model of `table_path(stem, table_name)`: `tables_dir(stem)/table_name.parquet`;
no `mkdir` of its own, but it calls `tables_dir`, which creates. -/
def ProcessedLayout.tablePath (L : ProcessedLayout) (s : DirState) (stem tableName : String) :
    List String × DirState :=
  let r := L.tablesDir s stem
  (r.1 ++ [tableName ++ ".parquet"], r.2)

/-- Model of `metadata_path(stem)`: `demo_dir(stem)/metadata.json`; no `mkdir` of its
own, but it calls `demo_dir`, which creates. -/
def ProcessedLayout.metadataPath (L : ProcessedLayout) (s : DirState) (stem : String) :
    List String × DirState :=
  let r := L.demoDir s stem
  (r.1 ++ [L.metadata_filename], r.2)

/-! ### Table summaries and the manifest
(`DatasetIndexer`, `indexing.py` lines 54–142) -/

/-- The `stats` object: `{}` when numeric statistics are disabled or no
column is numeric, otherwise the parallel `min`/`max` mappings from
numeric column name to null-skipping extremum (`None` when the column has
no non-null value). -/
inductive Stats where
  | empty : Stats
  | minmax (minVals maxVals : List (String × Option Int)) : Stats
deriving DecidableEq, Repr

/-- The integer content of a cell, if any. -/
def Value.toInt? : Value → Option Int
  | .int n => some n
  | .null => none
  | .str _ => none

/-- Model of `pl.col(name).min()`: null-skipping minimum, null when empty. -/
def colMin (vals : List Value) : Option Int :=
  (vals.filterMap Value.toInt?).min?

/-- Model of `pl.col(name).max()`: null-skipping maximum, null when empty. -/
def colMax (vals : List Value) : Option Int :=
  (vals.filterMap Value.toInt?).max?

/-- One `*.parquet` file in a demo's `tables/` directory: file stem,
`st_size`, and the dataframe it holds. -/
structure TableFile where
  name : String
  size : Nat
  frame : Frame
deriving DecidableEq, Repr

/-- The per-table summary record `_summarise_table` returns. -/
structure TableSummary where
  table_name : String
  path : List String
  file_size_bytes : Nat
  row_count : Nat
  schema : List (String × String)
  stats : Stats
  offset_index : List (String × List OffsetEntry)
  bloom_filters : List (String × BloomFilter)
deriving DecidableEq, Repr

/-- Model of `DatasetIndexer._summarise_table`. -/
def summariseTable (hash : String → Nat → Nat) (strategy : IndexingStrategy)
    (layout : ProcessedLayout) (demoStem : String) (t : TableFile) : TableSummary :=
  { table_name := t.name
    path := layout.tablePathOf demoStem t.name
    file_size_bytes := t.size
    row_count := t.frame.height
    schema := t.frame.columns.map (fun c => (c.name, c.dtype.toStr))
    stats :=
      if strategy.numeric_statistics then
        let numeric := t.frame.columns.filter (fun c => c.dtype.isNumeric)
        if numeric.isEmpty then .empty
        else
          .minmax (numeric.map (fun c => (c.name, colMin c.values)))
            (numeric.map (fun c => (c.name, colMax c.values)))
      else .empty
    offset_index := buildOffsetIndex strategy t.frame t.name
    bloom_filters := buildBloomFilters hash strategy t.frame t.name }

/-- One immediate subdirectory of the processed root: its name, whether its
`tables/` subdirectory exists, the `*.parquet` files inside it, and
whether `metadata.json` exists. -/
structure DemoDir where
  name : String
  hasTablesDir : Bool
  tables : List TableFile
  hasMetadata : Bool
deriving DecidableEq, Repr

/-- One entry of `root.iterdir()`: a plain file (skipped by `is_dir`) or a
demo directory. -/
inductive RootEntry where
  | file (name : String) : RootEntry
  | dir (d : DemoDir) : RootEntry
deriving DecidableEq, Repr

/-- The entry's name, the key `sorted(root.iterdir())` orders by. -/
def RootEntry.name : RootEntry → String
  | .file n => n
  | .dir d => d.name

/-- The contents of the processed root directory. -/
structure RootTree where
  entries : List RootEntry
deriving DecidableEq, Repr

/-- One per-demo record of the manifest's `datasets` list. -/
structure DatasetRecord where
  demo_stem : String
  demo_dir : List String
  metadata_file : Option (List String)
  tables : List TableSummary
deriving DecidableEq, Repr

/-- The manifest document `build_manifest` returns. -/
structure Manifest where
  generated_at : String
  dataset_count : Nat
  datasets : List DatasetRecord
deriving DecidableEq, Repr

/-- Model of `sorted(tables_dir.glob("*.parquet"))` compares full filenames. -/
def tableFileLe (a b : TableFile) : Bool :=
  strLe (a.name ++ ".parquet") (b.name ++ ".parquet")

/-- Model of `sorted(root.iterdir())` compares entry names. -/
def rootEntryLe (a b : RootEntry) : Bool :=
  strLe a.name b.name

/-- The body of `build_manifest`'s loop for one root entry: skip plain
files, skip a demo directory without a `tables/` subdirectory, skip one
whose `tables/` holds zero table files; otherwise summarise every table in
ascending filename order and emit the per-demo record. -/
def summariseDemoDir? (hash : String → Nat → Nat) (strategy : IndexingStrategy)
    (layout : ProcessedLayout) (d : DemoDir) : Option DatasetRecord :=
  if d.hasTablesDir then
    let tables := (sortLe tableFileLe d.tables).map (summariseTable hash strategy layout d.name)
    if tables.isEmpty then none
    else
      some
        { demo_stem := d.name
          demo_dir := layout.demoDirPath d.name
          metadata_file := if d.hasMetadata then some (layout.metadataPathOf d.name) else none
          tables := tables }
  else none

/-- Model of `DatasetIndexer.build_manifest`: scan the root's entries in ascending
name order, keep the records of the demo directories that produce one, and
stamp the wall-clock timestamp (`now`, an explicit parameter here). -/
def buildManifest (hash : String → Nat → Nat) (now : String) (layout : ProcessedLayout)
    (strategy : IndexingStrategy) (tree : RootTree) : Manifest :=
  let datasets := (sortLe rootEntryLe tree.entries).filterMap (fun e =>
    match e with
    | .file _ => none
    | .dir d => summariseDemoDir? hash strategy layout d)
  { generated_at := now
    dataset_count := datasets.length
    datasets := datasets }

/-- The files on disk: path to manifest-document content. (`json.dumps` of
the manifest document is injective on this model, so file content is kept
as the document itself.) -/
abbrev FileState := List (List String × Manifest)

/-- Model of `DatasetIndexer.write_manifest`: build the manifest, create the parent
directory of the global manifest path, overwrite the file there
(`write_text` replaces any previous content), and return the path. -/
def writeManifest (hash : String → Nat → Nat) (now : String) (layout : ProcessedLayout)
    (strategy : IndexingStrategy) (tree : RootTree) (dirs : DirState) (files : FileState) :
    List String × DirState × FileState :=
  let manifest := buildManifest hash now layout strategy tree
  let path := layout.globalManifestPath
  let dirs1 := mkdirParents dirs path.dropLast
  let files1 := dictInsert path manifest files
  (path, dirs1, files1)

/-- A key is bound in the dict. -/
def hasKey (d : List (κ × α)) (k : κ) : Prop :=
  ∃ v, (k, v) ∈ d

/-- A concrete, easily evaluable stand-in for the abstracted salted BLAKE2b
digest, used to instantiate theorems on concrete inputs (the theorems
themselves hold for every hash function). -/
def sampleHash : String → Nat → Nat :=
  fun s salt => s.length * 131 + salt * 977

/-! ### Lemmas on the python `dict` model -/

theorem self_mem_dictInsert [DecidableEq κ] (k : κ) (v : α) (d : List (κ × α)) :
    (k, v) ∈ dictInsert k v d := by
  induction d with
  | nil => simp [dictInsert]
  | cons p rest ih =>
    obtain ⟨k', v'⟩ := p
    by_cases h : k' = k <;> simp [dictInsert, h, ih]

theorem mem_dictInsert_elim [DecidableEq κ] {k k' : κ} {v v' : α} {d : List (κ × α)}
    (h : (k', v') ∈ dictInsert k v d) : (k' = k ∧ v' = v) ∨ (k', v') ∈ d := by
  induction d with
  | nil => simpa [dictInsert] using h
  | cons p rest ih =>
    obtain ⟨k₀, v₀⟩ := p
    by_cases hk : k₀ = k
    · simp only [dictInsert, if_pos hk, List.mem_cons] at h
      rcases h with h | h
      · exact Or.inl ⟨congrArg Prod.fst h, congrArg Prod.snd h⟩
      · exact Or.inr (List.mem_cons_of_mem _ h)
    · simp only [dictInsert, if_neg hk, List.mem_cons] at h
      rcases h with h | h
      · exact Or.inr (List.mem_cons.mpr (Or.inl h))
      · rcases ih h with h' | h'
        · exact Or.inl h'
        · exact Or.inr (List.mem_cons_of_mem _ h')

theorem hasKey_of_mem_dictInsert [DecidableEq κ] {k k' : κ} {v w : α} {d : List (κ × α)}
    (hw : (k', w) ∈ d) : hasKey (dictInsert k v d) k' := by
  induction d with
  | nil => simp at hw
  | cons p rest ih =>
    obtain ⟨k₀, v₀⟩ := p
    by_cases hk : k₀ = k
    · subst hk
      rcases List.mem_cons.mp hw with h | h
      · have hk' : k' = k₀ := congrArg Prod.fst h
        exact ⟨v, by simp [dictInsert, hk']⟩
      · exact ⟨w, by simp [dictInsert, List.mem_cons_of_mem _ h]⟩
    · rcases List.mem_cons.mp hw with h | h
      · refine ⟨v₀, ?_⟩
        rw [dictInsert, if_neg hk]
        have hk' : k' = k₀ := congrArg Prod.fst h
        exact List.mem_cons.mpr (Or.inl (by rw [hk']))
      · obtain ⟨w', hw'⟩ := ih h
        exact ⟨w', by simp only [dictInsert, if_neg hk]; exact List.mem_cons_of_mem _ hw'⟩

theorem hasKey_dictInsert [DecidableEq κ] {k k' : κ} {v : α} {d : List (κ × α)} :
    hasKey (dictInsert k v d) k' ↔ k' = k ∨ hasKey d k' := by
  constructor
  · rintro ⟨w, hw⟩
    rcases mem_dictInsert_elim hw with ⟨h1, _⟩ | h
    · exact Or.inl h1
    · exact Or.inr ⟨w, h⟩
  · rintro (rfl | ⟨w, hw⟩)
    · exact ⟨v, self_mem_dictInsert _ v d⟩
    · exact hasKey_of_mem_dictInsert hw

theorem dictFind?_dictInsert_self [DecidableEq κ] (k : κ) (v : α) (d : List (κ × α)) :
    dictFind? (dictInsert k v d) k = some v := by
  induction d with
  | nil => simp [dictInsert, dictFind?]
  | cons p rest ih =>
    obtain ⟨k₀, v₀⟩ := p
    by_cases hk : k₀ = k
    · subst hk
      simp [dictInsert, dictFind?]
    · rw [dictInsert, if_neg hk, dictFind?, List.find?]
      have : (decide ((k₀, v₀).1 = k)) = false := by simp [hk]
      rw [this]
      exact ih

theorem dictFind?_dictInsert_ne [DecidableEq κ] {k q : κ} (v : α) (d : List (κ × α))
    (h : q ≠ k) : dictFind? (dictInsert k v d) q = dictFind? d q := by
  have hkq : ¬(k = q) := fun h' => h h'.symm
  induction d with
  | nil => simp [dictInsert, dictFind?, hkq]
  | cons p rest ih =>
    obtain ⟨k₀, v₀⟩ := p
    by_cases hk : k₀ = k
    · subst hk
      rw [dictInsert, if_pos rfl, dictFind?,
        List.find?_cons_of_neg _ (by simpa using hkq), dictFind?,
        List.find?_cons_of_neg _ (by simpa using hkq)]
    · rw [dictInsert, if_neg hk]
      by_cases hq : k₀ = q
      · subst hq
        rw [dictFind?, List.find?_cons_of_pos _ (by simp), dictFind?,
          List.find?_cons_of_pos _ (by simp)]
      · rw [dictFind?, List.find?_cons_of_neg _ (by simpa using hq), dictFind?,
          List.find?_cons_of_neg _ (by simpa using hq)]
        exact ih

theorem mem_buildDict_elim {f : String → α} {cols : List String}
    {init : List (String × α)} {k : String} {v : α}
    (h : (k, v) ∈ buildDict f cols init) : (k ∈ cols ∧ v = f k) ∨ (k, v) ∈ init := by
  induction cols generalizing init with
  | nil => exact Or.inr h
  | cons c cs ih =>
    rcases ih (h : (k, v) ∈ buildDict f cs (dictInsert c (f c) init)) with ⟨h1, h2⟩ | h'
    · exact Or.inl ⟨List.mem_cons_of_mem _ h1, h2⟩
    · rcases mem_dictInsert_elim h' with ⟨rfl, rfl⟩ | h''
      · exact Or.inl ⟨List.mem_cons_self _ _, rfl⟩
      · exact Or.inr h''

theorem hasKey_buildDict {f : String → α} {cols : List String}
    {init : List (String × α)} {k : String} :
    hasKey (buildDict f cols init) k ↔ k ∈ cols ∨ hasKey init k := by
  induction cols generalizing init with
  | nil => simp [buildDict, hasKey]
  | cons c cs ih =>
    show hasKey (buildDict f cs (dictInsert c (f c) init)) k ↔ _
    rw [ih, hasKey_dictInsert]
    constructor
    · rintro (h | h | h)
      · exact Or.inl (List.mem_cons_of_mem _ h)
      · exact Or.inl (h ▸ List.mem_cons_self _ _)
      · exact Or.inr h
    · rintro (h | h)
      · rcases List.mem_cons.mp h with rfl | h'
        · exact Or.inr (Or.inl rfl)
        · exact Or.inl h'
      · exact Or.inr (Or.inr h)

theorem mem_buildDict_nil_iff {f : String → α} {cols : List String} {k : String} {v : α} :
    (k, v) ∈ buildDict f cols [] ↔ k ∈ cols ∧ v = f k := by
  constructor
  · intro h
    rcases mem_buildDict_elim h with h' | h'
    · exact h'
    · simp at h'
  · rintro ⟨hk, rfl⟩
    obtain ⟨w, hw⟩ := hasKey_buildDict.mpr (Or.inl hk)
    rcases mem_buildDict_elim hw with ⟨_, rfl⟩ | h'
    · exact hw
    · simp at h'

/-! ### Lemmas on `sortLe` (python `sorted`) -/

theorem perm_insertLe (le : α → α → Bool) (a : α) (l : List α) :
    (insertLe le a l).Perm (a :: l) := by
  induction l with
  | nil => simp [insertLe]
  | cons b bs ih =>
    by_cases h : le a b
    · simp [insertLe, h]
    · simpa [insertLe, h] using ((ih.cons b).trans (List.Perm.swap a b bs))

theorem perm_sortLe (le : α → α → Bool) (l : List α) : (sortLe le l).Perm l := by
  induction l with
  | nil => simp [sortLe]
  | cons a as ih => exact (perm_insertLe le a (sortLe le as)).trans (ih.cons a)

theorem mem_insertLe {le : α → α → Bool} {a b : α} {l : List α}
    (h : b ∈ insertLe le a l) : b = a ∨ b ∈ l := by
  simpa using (perm_insertLe le a l).mem_iff.mp h

theorem pairwise_insertLe {le : α → α → Bool}
    (total : ∀ a b, le a b = true ∨ le b a = true)
    (htrans : ∀ a b c, le a b = true → le b c = true → le a c = true)
    {a : α} {l : List α} (hl : l.Pairwise (fun x y => le x y = true)) :
    (insertLe le a l).Pairwise (fun x y => le x y = true) := by
  induction l with
  | nil => simp [insertLe]
  | cons b bs ih =>
    rcases List.pairwise_cons.mp hl with ⟨hb, hbs⟩
    by_cases h : le a b
    · rw [insertLe, if_pos h]
      refine List.pairwise_cons.mpr ⟨?_, hl⟩
      intro x hx
      rcases List.mem_cons.mp hx with rfl | hx'
      · exact h
      · exact htrans a b x h (hb x hx')
    · rcases total a b with h' | h'
      · exact absurd h' h
      · rw [insertLe, if_neg h]
        refine List.pairwise_cons.mpr ⟨?_, ih hbs⟩
        intro x hx
        rcases mem_insertLe hx with rfl | hx'
        · exact h'
        · exact hb x hx'

theorem pairwise_sortLe {le : α → α → Bool}
    (total : ∀ a b, le a b = true ∨ le b a = true)
    (htrans : ∀ a b c, le a b = true → le b c = true → le a c = true)
    (l : List α) : (sortLe le l).Pairwise (fun x y => le x y = true) := by
  induction l with
  | nil => simp [sortLe]
  | cons a as ih => exact pairwise_insertLe total htrans ih

/-! ### Lemmas on `mkdirParents` -/

theorem mem_addNewFold {s : DirState} {l : List (List String)} {q : List String} :
    q ∈ l.foldl (fun s p => if p ∈ s then s else s ++ [p]) s ↔ q ∈ s ∨ q ∈ l := by
  induction l generalizing s with
  | nil => simp
  | cons p rest ih =>
    show q ∈ rest.foldl _ (if p ∈ s then s else s ++ [p]) ↔ _
    by_cases hp : p ∈ s
    · rw [if_pos hp, ih]
      constructor
      · rintro (h | h)
        · exact Or.inl h
        · exact Or.inr (List.mem_cons_of_mem _ h)
      · rintro (h | h)
        · exact Or.inl h
        · rcases List.mem_cons.mp h with rfl | h'
          · exact Or.inl hp
          · exact Or.inr h'
    · rw [if_neg hp, ih]
      simp only [List.mem_append, List.mem_singleton, List.mem_cons]
      tauto

theorem mem_mkdirParents {s : DirState} {p : List String} {q : List String} :
    q ∈ mkdirParents s p ↔ q ∈ s ∨ q ∈ prefixesOf p :=
  mem_addNewFold

theorem prefixesOf_append_singleton {p : List String} {x : String} {q : List String}
    (h : q ∈ prefixesOf p) : q ∈ prefixesOf (p ++ [x]) := by
  simp only [prefixesOf, List.mem_map, List.mem_range] at h ⊢
  obtain ⟨i, hi, rfl⟩ := h
  refine ⟨i, by simpa using Nat.lt_succ_of_lt hi, ?_⟩
  rw [List.take_append_of_le_length (by omega : i + 1 ≤ p.length)]

/-! ### The comparison functions are total preorders -/

theorem charListLe_cons_iff {a b : Char} {as bs : List Char} :
    charListLe (a :: as) (b :: bs) = true ↔
      a < b ∨ (¬a < b ∧ ¬b < a ∧ charListLe as bs = true) := by
  rw [charListLe]
  by_cases h1 : a < b
  · simp [h1]
  · by_cases h2 : b < a <;> simp [h1, h2]

theorem charListLe_total : ∀ as bs : List Char,
    charListLe as bs = true ∨ charListLe bs as = true
  | [], _ => Or.inl rfl
  | _ :: _, [] => Or.inr rfl
  | a :: as, b :: bs => by
    by_cases h1 : a < b
    · exact Or.inl (charListLe_cons_iff.mpr (Or.inl h1))
    · by_cases h2 : b < a
      · exact Or.inr (charListLe_cons_iff.mpr (Or.inl h2))
      · rcases charListLe_total as bs with h | h
        · exact Or.inl (charListLe_cons_iff.mpr (Or.inr ⟨h1, h2, h⟩))
        · exact Or.inr (charListLe_cons_iff.mpr (Or.inr ⟨h2, h1, h⟩))

theorem charListLe_trans : ∀ as bs cs : List Char,
    charListLe as bs = true → charListLe bs cs = true → charListLe as cs = true
  | [], _, _, _, _ => rfl
  | a :: as, [], _, h, _ => by simp [charListLe] at h
  | _ :: _, _ :: _, [], _, h => by simp [charListLe] at h
  | a :: as, b :: bs, c :: cs, h1, h2 => by
    rcases charListLe_cons_iff.mp h1 with hab | ⟨hab1, hab2, hab3⟩
    · rcases charListLe_cons_iff.mp h2 with hbc | ⟨hbc1, hbc2, hbc3⟩
      · exact charListLe_cons_iff.mpr (Or.inl (lt_trans hab hbc))
      · have hbc : b = c := le_antisymm (not_lt.mp hbc2) (not_lt.mp hbc1)
        exact charListLe_cons_iff.mpr (Or.inl (hbc ▸ hab))
    · have hab : a = b := le_antisymm (not_lt.mp hab2) (not_lt.mp hab1)
      subst hab
      rcases charListLe_cons_iff.mp h2 with hbc | ⟨hbc1, hbc2, hbc3⟩
      · exact charListLe_cons_iff.mpr (Or.inl hbc)
      · exact charListLe_cons_iff.mpr
          (Or.inr ⟨hbc1, hbc2, charListLe_trans as bs cs hab3 hbc3⟩)

theorem strLe_total (a b : String) : strLe a b = true ∨ strLe b a = true :=
  charListLe_total a.data b.data

theorem strLe_trans {a b c : String} (h1 : strLe a b = true) (h2 : strLe b c = true) :
    strLe a c = true :=
  charListLe_trans a.data b.data c.data h1 h2

theorem Value.null_le (b : Value) : Value.le .null b = true := by
  cases b <;> rfl

theorem Value.le_total : ∀ a b : Value, Value.le a b = true ∨ Value.le b a = true
  | .null, b => Or.inl (Value.null_le b)
  | .int _, .null => Or.inr rfl
  | .str _, .null => Or.inr rfl
  | .int a, .int b => by
    rcases Int.le_total a b with h | h
    · exact Or.inl (by simp [Value.le, h])
    · exact Or.inr (by simp [Value.le, h])
  | .int _, .str _ => Or.inl rfl
  | .str _, .int _ => Or.inr rfl
  | .str a, .str b => strLe_total a b

theorem Value.le_trans : ∀ a b c : Value,
    Value.le a b = true → Value.le b c = true → Value.le a c = true
  | .null, _, c, _, _ => Value.null_le c
  | .int _, .null, _, h, _ => by simp [Value.le] at h
  | .str _, .null, _, h, _ => by simp [Value.le] at h
  | .int _, .int _, .null, _, h => by simp [Value.le] at h
  | .int _, .str _, .null, _, h => by simp [Value.le] at h
  | .str _, .str _, .null, _, h => by simp [Value.le] at h
  | .str _, .int _, _, h, _ => by simp [Value.le] at h
  | .int a, .int b, .int c, h1, h2 => by
    simp only [Value.le, decide_eq_true_eq] at h1 h2 ⊢
    omega
  | .int _, .int _, .str _, _, _ => rfl
  | .int _, .str _, .int _, _, h => by simp [Value.le] at h
  | .int _, .str _, .str _, _, _ => rfl
  | .str _, .str _, .int _, _, h => by simp [Value.le] at h
  | .str a, .str b, .str c, h1, h2 => strLe_trans h1 h2

/-! ### Lemmas on the offset-index grouping -/

theorem mem_positionsOf {v : Value} {vals : List Value} {i : Nat} :
    i ∈ positionsOf v vals ↔ i < vals.length ∧ vals.getD i .null = v := by
  simp [positionsOf, List.mem_filter, List.mem_range]

theorem pairwise_lt_positionsOf (v : Value) (vals : List Value) :
    (positionsOf v vals).Pairwise (· < ·) :=
  (List.pairwise_lt_range vals.length).filter _

theorem nodup_positionsOf (v : Value) (vals : List Value) :
    (positionsOf v vals).Nodup :=
  (List.nodup_range vals.length).filter _

theorem count_positionsOf {v : Value} {vals : List Value} {i : Nat} :
    (positionsOf v vals).count i =
      if i < vals.length ∧ vals.getD i .null = v then 1 else 0 := by
  by_cases h : i < vals.length ∧ vals.getD i .null = v
  · rw [if_pos h]
    exact List.count_eq_one_of_mem (nodup_positionsOf v vals) (mem_positionsOf.mpr h)
  · rw [if_neg h]
    exact List.count_eq_zero_of_not_mem (fun hm => h (mem_positionsOf.mp hm))

theorem sum_map_indicator {l : List α} {a : α} (f : α → Nat) (hn : l.Nodup) (ha : a ∈ l)
    (hf1 : f a = 1) (hf0 : ∀ b ∈ l, b ≠ a → f b = 0) : (l.map f).sum = 1 := by
  induction l with
  | nil => simp at ha
  | cons x xs ih =>
    rcases List.nodup_cons.mp hn with ⟨hx, hxs⟩
    rcases List.mem_cons.mp ha with rfl | ha'
    · have : ∀ b ∈ xs, f b = 0 := fun b hb =>
        hf0 b (List.mem_cons_of_mem _ hb) (fun hba => hx (hba ▸ hb))
      have hz : (xs.map f).sum = 0 :=
        List.sum_eq_zero (by
          intro y hy
          obtain ⟨b, hb, rfl⟩ := List.mem_map.mp hy
          exact this b hb)
      simp [hf1, hz]
    · have hxa : x ≠ a := fun hxa => hx (hxa ▸ ha')
      have hx0 : f x = 0 := hf0 x (List.mem_cons_self _ _) hxa
      have := ih hxs ha' (fun b hb hba => hf0 b (List.mem_cons_of_mem _ hb) hba)
      simp [hx0, this]

theorem groupPositions_values (vals : List Value) :
    (groupPositions vals).map (·.value) = sortLe Value.le (distinctValues vals) := by
  rw [groupPositions, List.map_map]
  exact List.map_congr_left (fun v _ => rfl) |>.trans (List.map_id _)

theorem nodup_groupPositions_values (vals : List Value) :
    ((groupPositions vals).map (·.value)).Nodup := by
  rw [groupPositions_values]
  exact (perm_sortLe Value.le (distinctValues vals)).symm.nodup vals.nodup_dedup

theorem pairwise_le_groupPositions (vals : List Value) :
    (groupPositions vals).Pairwise (fun e1 e2 => Value.le e1.value e2.value = true) := by
  have h := pairwise_sortLe Value.le_total Value.le_trans (distinctValues vals)
  exact h.map _ (fun a b hab => hab)

theorem mem_groupPositions_iff {vals : List Value} {e : OffsetEntry} :
    e ∈ groupPositions vals ↔ e.value ∈ vals ∧ e.positions = positionsOf e.value vals := by
  constructor
  · intro h
    obtain ⟨v, hv, he⟩ := List.mem_map.mp h
    have hmem : v ∈ vals := List.mem_dedup.mp ((perm_sortLe Value.le _).mem_iff.mp hv)
    cases he
    exact ⟨hmem, rfl⟩
  · rintro ⟨hv, hp⟩
    refine List.mem_map.mpr ⟨e.value, ?_, ?_⟩
    · exact (perm_sortLe Value.le _).mem_iff.mpr (List.mem_dedup.mpr hv)
    · cases e with
      | mk v p => simpa using hp.symm

theorem flatten_groupPositions_perm (vals : List Value) :
    ((groupPositions vals).map (·.positions)).flatten.Perm (List.range vals.length) := by
  apply List.perm_iff_count.mpr
  intro i
  rw [List.count_flatten]
  have hmaps : ((groupPositions vals).map (·.positions)).map (List.count i) =
      (sortLe Value.le (distinctValues vals)).map (fun v => (positionsOf v vals).count i) := by
    simp [groupPositions, List.map_map, Function.comp]
  rw [hmaps]
  have hperm := (perm_sortLe Value.le (distinctValues vals)).map
    (fun v => (positionsOf v vals).count i)
  rw [hperm.sum_eq]
  by_cases h : i < vals.length
  · have hv0 : vals.getD i .null ∈ vals := by
      rw [List.getD_eq_getElem vals .null h]
      exact List.getElem_mem h
    have hsum : ((distinctValues vals).map (fun v => (positionsOf v vals).count i)).sum = 1 := by
      refine sum_map_indicator _ vals.nodup_dedup (List.mem_dedup.mpr hv0) ?_ ?_
      · rw [count_positionsOf, if_pos ⟨h, rfl⟩]
      · intro b hb hba
        rw [count_positionsOf, if_neg (fun hc => hba hc.2.symm)]
    rw [hsum]
    exact (List.count_eq_one_of_mem (List.nodup_range _) (List.mem_range.mpr h)).symm
  · have hsum : ((distinctValues vals).map (fun v => (positionsOf v vals).count i)).sum = 0 := by
      refine List.sum_eq_zero ?_
      intro y hy
      obtain ⟨b, _, rfl⟩ := List.mem_map.mp hy
      rw [count_positionsOf, if_neg (fun hc => h hc.1)]
    rw [hsum]
    exact (List.count_eq_zero_of_not_mem (fun hm => h (List.mem_range.mp hm))).symm

/-! ### Frame column lookup -/

theorem getCol_of_mem_colNames {f : Frame} {c : String} (h : c ∈ f.colNames) :
    ∃ col, f.getCol c = some col ∧ col ∈ f.columns ∧ col.name = c := by
  obtain ⟨col0, hcol0, hname⟩ := List.mem_map.mp h
  have hsome : (f.getCol c).isSome := by
    rw [Frame.getCol, List.find?_isSome]
    exact ⟨col0, hcol0, by simp [hname]⟩
  obtain ⟨col, hcol⟩ := Option.isSome_iff_exists.mp hsome
  refine ⟨col, hcol, List.mem_of_find?_eq_some hcol, ?_⟩
  have := List.find?_some hcol
  simpa using this

theorem colValues_eq_of_getCol {f : Frame} {c : String} {col : Column}
    (h : f.getCol c = some col) : f.colValues c = col.values := by
  rw [Frame.colValues, h]

/-! ### Lemmas on the bloom bitset -/

theorem saltFold_preserve (g : Nat → Nat) (salts : List Nat) (bits : Nat → Bool) (j : Nat)
    (hj : bits j = true) :
    (salts.foldl (fun b s => fun i => if i = g s then true else b i) bits) j = true := by
  induction salts generalizing bits with
  | nil => exact hj
  | cons s rest ih =>
    refine ih _ ?_
    by_cases h : j = g s <;> simp [h, hj]

theorem saltFold_sets (g : Nat → Nat) (salts : List Nat) (bits : Nat → Bool) (salt : Nat)
    (hs : salt ∈ salts) :
    (salts.foldl (fun b s => fun i => if i = g s then true else b i) bits) (g salt) = true := by
  induction salts generalizing bits with
  | nil => simp at hs
  | cons s rest ih =>
    rcases List.mem_cons.mp hs with rfl | hs'
    · exact saltFold_preserve g rest _ (g salt) (by simp)
    · exact ih _ hs'

theorem valueFold_preserve (hash : String → Nat → Nat) (numBits hashCount : Nat)
    (values : List Value) (bits : Nat → Bool) (j : Nat) (hj : bits j = true) :
    (values.foldl
      (fun bits v =>
        (List.range hashCount).foldl
          (fun bits salt =>
            fun i => if i = hash (Value.toStr v) salt % numBits then true else bits i)
          bits)
      bits) j = true := by
  induction values generalizing bits with
  | nil => exact hj
  | cons v rest ih =>
    exact ih _ (saltFold_preserve (fun s => hash (Value.toStr v) s % numBits) _ bits j hj)

theorem bloomBits_set (hash : String → Nat → Nat) {values : List Value} {v : Value}
    (hv : v ∈ values) {numBits hashCount salt : Nat} (hs : salt < hashCount) :
    bloomBits hash values numBits hashCount (hash (Value.toStr v) salt % numBits) = true := by
  rw [bloomBits]
  have main : ∀ (vs : List Value) (bits : Nat → Bool), v ∈ vs →
      (vs.foldl
        (fun bits v =>
          (List.range hashCount).foldl
            (fun bits salt =>
              fun i => if i = hash (Value.toStr v) salt % numBits then true else bits i)
            bits)
        bits) (hash (Value.toStr v) salt % numBits) = true := by
    intro vs
    induction vs with
    | nil => intro bits h; simp at h
    | cons u us ih =>
      intro bits h
      rcases List.mem_cons.mp h with rfl | h'
      · exact valueFold_preserve hash numBits hashCount us _ _
          (saltFold_sets (fun s => hash (Value.toStr v) s % numBits) _ bits salt
            (List.mem_range.mpr hs))
      · exact ih _ h'
  exact main values _ hv

theorem mem_set_bits_iff {hash : String → Nat → Nat} {values : List Value}
    {numBits hashCount i : Nat} :
    i ∈ (createBloomFilter hash values numBits hashCount).set_bits ↔
      i < numBits ∧ bloomBits hash values numBits hashCount i = true := by
  simp [createBloomFilter, List.mem_filter, List.mem_range]

/-- C3: for every column configured for a bloom filter and present in the
table, and every non-null value `v` of that column, each of the
`hash_count` positions obtained by hashing `str(v)` with salt
`0..hash_count-1` and reducing modulo `num_bits` is contained in the
emitted `set_bits` (no false negatives when re-deriving positions with the
same parameters; the builder uses the defaults `num_bits = 2048`,
`hash_count = 3`). -/
theorem bloom_no_false_negatives (hash : String → Nat → Nat) (strategy : IndexingStrategy)
    (frame : Frame) (tableName c : String) (bf : BloomFilter)
    (hmem : (c, bf) ∈ buildBloomFilters hash strategy frame tableName)
    (v : Value) (hv : v ∈ frame.colValues c) (hnn : v ≠ .null)
    (salt : Nat) (hs : salt < bf.hash_count) :
    hash (Value.toStr v) salt % bf.num_bits ∈ bf.set_bits := by
  simp only [buildBloomFilters] at hmem
  obtain ⟨-, rfl⟩ := mem_buildDict_nil_iff.mp hmem
  have hv' : v ∈ dropNulls (frame.colValues c) :=
    List.mem_filter.mpr ⟨hv, by simpa using hnn⟩
  refine mem_set_bits_iff.mpr ⟨?_, ?_⟩
  · exact Nat.mod_lt _ (by norm_num [createBloomFilter, defaultNumBits])
  · exact bloomBits_set hash hv' hs

/-- Witness for C3 on a concrete strategy, frame, value and salt. -/
theorem bloom_no_false_negatives_witness :
    (("side", createBloomFilter sampleHash [Value.str "CT", Value.str "T"]
        defaultNumBits defaultHashCount) ∈
      buildBloomFilters sampleHash
        ⟨[], [("rounds", ["side"])], true⟩
        ⟨[⟨"side", .string, [.str "CT", .null, .str "T"]⟩]⟩ "rounds")
    ∧ Value.str "CT" ∈
        Frame.colValues ⟨[⟨"side", .string, [.str "CT", .null, .str "T"]⟩]⟩ "side"
    ∧ Value.str "CT" ≠ .null
    ∧ 2 < (createBloomFilter sampleHash [Value.str "CT", Value.str "T"]
        defaultNumBits defaultHashCount).hash_count
    ∧ sampleHash (Value.toStr (Value.str "CT")) 2 %
        (createBloomFilter sampleHash [Value.str "CT", Value.str "T"]
          defaultNumBits defaultHashCount).num_bits ∈
      (createBloomFilter sampleHash [Value.str "CT", Value.str "T"]
        defaultNumBits defaultHashCount).set_bits := by
  have hmem : ("side", createBloomFilter sampleHash [Value.str "CT", Value.str "T"]
      defaultNumBits defaultHashCount) ∈
      buildBloomFilters sampleHash
        ⟨[], [("rounds", ["side"])], true⟩
        ⟨[⟨"side", .string, [.str "CT", .null, .str "T"]⟩]⟩ "rounds" := by
    rw [show buildBloomFilters sampleHash
        ⟨[], [("rounds", ["side"])], true⟩
        ⟨[⟨"side", .string, [.str "CT", .null, .str "T"]⟩]⟩ "rounds"
        = [("side", createBloomFilter sampleHash [Value.str "CT", Value.str "T"]
            defaultNumBits defaultHashCount)] from rfl]
    exact List.mem_singleton.mpr rfl
  refine ⟨hmem, by simp [Frame.colValues, Frame.getCol, List.find?], by simp, Nat.lt_succ_self 2, ?_⟩
  exact bloom_no_false_negatives sampleHash ⟨[], [("rounds", ["side"])], true⟩
    ⟨[⟨"side", .string, [.str "CT", .null, .str "T"]⟩]⟩ "rounds" "side"
    (createBloomFilter sampleHash [Value.str "CT", Value.str "T"]
      defaultNumBits defaultHashCount)
    hmem (Value.str "CT")
    (by simp [Frame.colValues, Frame.getCol, List.find?]) (by simp) 2 (Nat.lt_succ_self 2)

set_option maxRecDepth 4000 in
/-- C8: every serialized bloom filter produced by the indexer has
`set_bits` strictly increasing and every element below `num_bits`. -/
theorem bloom_set_bits_sorted_bounded (hash : String → Nat → Nat)
    (strategy : IndexingStrategy) (frame : Frame) (tableName c : String) (bf : BloomFilter)
    (hmem : (c, bf) ∈ buildBloomFilters hash strategy frame tableName) :
    bf.set_bits.Pairwise (· < ·) ∧ ∀ i ∈ bf.set_bits, i < bf.num_bits := by
  simp only [buildBloomFilters] at hmem
  obtain ⟨-, rfl⟩ := mem_buildDict_nil_iff.mp hmem
  constructor
  · exact (List.pairwise_lt_range _).filter _
  · intro i hi
    exact (mem_set_bits_iff.mp hi).1

/-- Witness for C8 on a concrete strategy and frame. -/
theorem bloom_set_bits_sorted_bounded_witness :
    (("side", createBloomFilter sampleHash [Value.str "CT", Value.str "T"]
        defaultNumBits defaultHashCount) ∈
      buildBloomFilters sampleHash
        ⟨[], [("rounds", ["side"])], true⟩
        ⟨[⟨"side", .string, [.str "CT", .null, .str "T"]⟩]⟩ "rounds")
    ∧ (createBloomFilter sampleHash [Value.str "CT", Value.str "T"]
        defaultNumBits defaultHashCount).set_bits.Pairwise (· < ·)
    ∧ ∀ i ∈ (createBloomFilter sampleHash [Value.str "CT", Value.str "T"]
        defaultNumBits defaultHashCount).set_bits,
        i < (createBloomFilter sampleHash [Value.str "CT", Value.str "T"]
          defaultNumBits defaultHashCount).num_bits := by
  have hmem : ("side", createBloomFilter sampleHash [Value.str "CT", Value.str "T"]
      defaultNumBits defaultHashCount) ∈
      buildBloomFilters sampleHash
        ⟨[], [("rounds", ["side"])], true⟩
        ⟨[⟨"side", .string, [.str "CT", .null, .str "T"]⟩]⟩ "rounds" := by
    rw [show buildBloomFilters sampleHash
        ⟨[], [("rounds", ["side"])], true⟩
        ⟨[⟨"side", .string, [.str "CT", .null, .str "T"]⟩]⟩ "rounds"
        = [("side", createBloomFilter sampleHash [Value.str "CT", Value.str "T"]
            defaultNumBits defaultHashCount)] from rfl]
    exact List.mem_singleton.mpr rfl
  refine ⟨hmem, ?_⟩
  exact bloom_set_bits_sorted_bounded sampleHash ⟨[], [("rounds", ["side"])], true⟩
    ⟨[⟨"side", .string, [.str "CT", .null, .str "T"]⟩]⟩ "rounds" "side"
    (createBloomFilter sampleHash [Value.str "CT", Value.str "T"]
      defaultNumBits defaultHashCount) hmem

/-- C4: for every offset-indexed column of a table, the `positions` lists
of the emitted entries form an exact partition of the row indices
`0..row_count-1` (their concatenation is a permutation of `range
row_count`: no row omitted, none duplicated), entries are ordered by value
ascending (pairwise `Value.le` with pairwise-distinct values), and each
`positions` list is strictly ascending. -/
theorem offset_index_partitions_rows (strategy : IndexingStrategy) (frame : Frame)
    (tableName c : String) (entries : List OffsetEntry)
    (hwf : frame.WF)
    (hmem : (c, entries) ∈ buildOffsetIndex strategy frame tableName) :
    ((entries.map (·.positions)).flatten).Perm (List.range frame.height)
    ∧ entries.Pairwise (fun e1 e2 => Value.le e1.value e2.value = true)
    ∧ (entries.map (·.value)).Nodup
    ∧ ∀ e ∈ entries, e.positions.Pairwise (· < ·) := by
  simp only [buildOffsetIndex] at hmem
  obtain ⟨hc, rfl⟩ := mem_buildDict_nil_iff.mp hmem
  have hc' : c ∈ frame.colNames := by simpa using (List.mem_filter.mp hc).2
  obtain ⟨col, hcol, hcolmem, -⟩ := getCol_of_mem_colNames hc'
  have hvals : frame.colValues c = col.values := colValues_eq_of_getCol hcol
  have hlen : col.values.length = frame.height := hwf col hcolmem
  refine ⟨?_, pairwise_le_groupPositions _, nodup_groupPositions_values _, ?_⟩
  · rw [hvals, ← hlen]
    exact flatten_groupPositions_perm col.values
  · intro e he
    rw [hvals] at he
    rw [(mem_groupPositions_iff.mp he).2]
    exact pairwise_lt_positionsOf _ _

/-- Witness for C4 on a concrete strategy and frame (a column with a
repeated value and a null). -/
theorem offset_index_partitions_rows_witness :
    Frame.WF ⟨[⟨"a", .int64, [.int 2, .null, .int 2]⟩]⟩
    ∧ ("a", groupPositions [.int 2, .null, .int 2]) ∈
        buildOffsetIndex ⟨[("t", ["a"])], [], true⟩
          ⟨[⟨"a", .int64, [.int 2, .null, .int 2]⟩]⟩ "t"
    ∧ ((((groupPositions [.int 2, .null, .int 2]).map (·.positions)).flatten).Perm
        (List.range (Frame.height ⟨[⟨"a", .int64, [.int 2, .null, .int 2]⟩]⟩))
      ∧ (groupPositions [.int 2, .null, .int 2]).Pairwise
          (fun e1 e2 => Value.le e1.value e2.value = true)
      ∧ ((groupPositions [.int 2, .null, .int 2]).map (·.value)).Nodup
      ∧ ∀ e ∈ groupPositions [.int 2, .null, .int 2], e.positions.Pairwise (· < ·)) :=
  ⟨fun col hcol => by rcases List.mem_singleton.mp hcol with rfl; rfl, by decide,
    offset_index_partitions_rows ⟨[("t", ["a"])], [], true⟩
      ⟨[⟨"a", .int64, [.int 2, .null, .int 2]⟩]⟩ "t" "a"
      (groupPositions [.int 2, .null, .int 2])
      (fun col hcol => by rcases List.mem_singleton.mp hcol with rfl; rfl) (by decide)⟩

/-! ### Column selection (claims C5, C10) -/

theorem exists_key_buildDict_nil {f : String → α} {cols : List String} {k : String} :
    (∃ v, (k, v) ∈ buildDict f cols []) ↔ k ∈ cols := by
  constructor
  · rintro ⟨v, hv⟩
    exact (mem_buildDict_nil_iff.mp hv).1
  · intro h
    exact ⟨f k, mem_buildDict_nil_iff.mpr ⟨h, rfl⟩⟩

theorem mem_merged_iff {tableName c : String} {mapping : List (String × List String)} :
    c ∈ IndexingStrategy.merged tableName mapping ↔
      c ∈ (dictFind? mapping "*").getD [] ∨ c ∈ (dictFind? mapping tableName).getD [] := by
  rw [IndexingStrategy.merged]
  cases h1 : dictFind? mapping "*" <;> cases h2 : dictFind? mapping tableName <;> simp

/-- C5: a column receives an offset index (resp. a bloom filter) for table
`tableName` exactly when it is in the union of the strategy's wildcard
entry and its per-table entry and is present in the table; a configured
column absent from the table is silently skipped (the builders are total
functions — no error path exists in the model). -/
theorem strategy_column_selection (hash : String → Nat → Nat) (strategy : IndexingStrategy)
    (frame : Frame) (tableName c : String) :
    ((∃ entries, (c, entries) ∈ buildOffsetIndex strategy frame tableName) ↔
      ((c ∈ (dictFind? strategy.offset_columns "*").getD [] ∨
        c ∈ (dictFind? strategy.offset_columns tableName).getD []) ∧ c ∈ frame.colNames))
    ∧ ((∃ bf, (c, bf) ∈ buildBloomFilters hash strategy frame tableName) ↔
      ((c ∈ (dictFind? strategy.bloom_filter_columns "*").getD [] ∨
        c ∈ (dictFind? strategy.bloom_filter_columns tableName).getD []) ∧
        c ∈ frame.colNames)) := by
  constructor
  · simp only [buildOffsetIndex, exists_key_buildDict_nil, List.mem_filter,
      IndexingStrategy.offsetsFor, mem_merged_iff, decide_eq_true_eq]
  · simp only [buildBloomFilters, exists_key_buildDict_nil, List.mem_filter,
      IndexingStrategy.bloomsFor, mem_merged_iff, decide_eq_true_eq]

/-- Witness for C5: instantiation at the repository test's strategy, where
`winning_side` is bloom-configured and present and `tick` is configured
for offsets on another table only. -/
theorem strategy_column_selection_witness :
    ((∃ entries, ("round_number", entries) ∈
        buildOffsetIndex ⟨[("rounds", ["round_number"])], [("rounds", ["winning_side"])], true⟩
          ⟨[⟨"round_number", .int64, [.int 1]⟩, ⟨"winning_side", .string, [.str "CT"]⟩]⟩
          "rounds") ↔
      (("round_number" ∈
          (dictFind? [("rounds", ["round_number"])] "*").getD [] ∨
        "round_number" ∈
          (dictFind? [("rounds", ["round_number"])] "rounds").getD []) ∧
        "round_number" ∈
          Frame.colNames
            ⟨[⟨"round_number", .int64, [.int 1]⟩, ⟨"winning_side", .string, [.str "CT"]⟩]⟩))
    ∧ ((∃ bf, ("round_number", bf) ∈
        buildBloomFilters sampleHash
          ⟨[("rounds", ["round_number"])], [("rounds", ["winning_side"])], true⟩
          ⟨[⟨"round_number", .int64, [.int 1]⟩, ⟨"winning_side", .string, [.str "CT"]⟩]⟩
          "rounds") ↔
      (("round_number" ∈
          (dictFind? [("rounds", ["winning_side"])] "*").getD [] ∨
        "round_number" ∈
          (dictFind? [("rounds", ["winning_side"])] "rounds").getD []) ∧
        "round_number" ∈
          Frame.colNames
            ⟨[⟨"round_number", .int64, [.int 1]⟩, ⟨"winning_side", .string, [.str "CT"]⟩]⟩)) :=
  strategy_column_selection sampleHash
    ⟨[("rounds", ["round_number"])], [("rounds", ["winning_side"])], true⟩
    ⟨[⟨"round_number", .int64, [.int 1]⟩, ⟨"winning_side", .string, [.str "CT"]⟩]⟩
    "rounds" "round_number"

theorem mem_keys_iff_hasKey {d : List (κ × α)} {k : κ} :
    k ∈ d.map Prod.fst ↔ hasKey d k := by
  rw [List.mem_map]
  constructor
  · rintro ⟨⟨k0, v0⟩, hm, rfl⟩
    exact ⟨v0, hm⟩
  · rintro ⟨v, hv⟩
    exact ⟨(k, v), hv, rfl⟩

theorem keys_nodup_dictInsert [DecidableEq κ] {k : κ} {v : α} {d : List (κ × α)}
    (h : (d.map Prod.fst).Nodup) : ((dictInsert k v d).map Prod.fst).Nodup := by
  induction d with
  | nil => simp [dictInsert]
  | cons p rest ih =>
    obtain ⟨k0, v0⟩ := p
    rw [List.map_cons] at h
    rcases List.nodup_cons.mp h with ⟨hk0, hrest⟩
    by_cases hk : k0 = k
    · subst hk
      simpa [dictInsert] using List.nodup_cons.mpr ⟨hk0, hrest⟩
    · simp only [dictInsert, if_neg hk, List.map_cons]
      refine List.nodup_cons.mpr ⟨?_, ih hrest⟩
      intro hmem
      rcases hasKey_dictInsert.mp (mem_keys_iff_hasKey.mp hmem) with h1 | h2
      · exact hk h1
      · exact hk0 (mem_keys_iff_hasKey.mpr h2)

theorem keys_nodup_buildDict {f : String → α} {cols : List String}
    {init : List (String × α)} (h : (init.map Prod.fst).Nodup) :
    ((buildDict f cols init).map Prod.fst).Nodup := by
  induction cols generalizing init with
  | nil => exact h
  | cons x xs ih => exact ih (keys_nodup_dictInsert h)

theorem countP_fst_eq_count_map (l : List (String × α)) (c : String) :
    l.countP (fun p => p.1 = c) = (l.map Prod.fst).count c := by
  induction l with
  | nil => rfl
  | cons p rest ih =>
    rw [List.countP_cons, List.map_cons, List.count_cons, ih]
    by_cases h : p.1 = c
    · simp [h]
    · simp [h, Ne.symm h]

theorem countP_buildDict_nil {f : String → α} {cols : List String} {c : String}
    (h : c ∈ cols) : (buildDict f cols []).countP (fun p => p.1 = c) = 1 := by
  rw [countP_fst_eq_count_map]
  refine List.count_eq_one_of_mem (keys_nodup_buildDict (by simp)) ?_
  have hk : hasKey (buildDict f cols []) c := hasKey_buildDict.mpr (Or.inl h)
  exact mem_keys_iff_hasKey.mpr hk

theorem dictFind?_buildDict_not_mem {f : String → α} {cols : List String}
    {init : List (String × α)} {k : String} (h : k ∉ cols) :
    dictFind? (buildDict f cols init) k = dictFind? init k := by
  induction cols generalizing init with
  | nil => rfl
  | cons x xs ih =>
    have hx : k ≠ x := fun he => h (he ▸ List.mem_cons_self x xs)
    show dictFind? (buildDict f xs (dictInsert x (f x) init)) k = _
    rw [ih (fun hm => h (List.mem_cons_of_mem _ hm))]
    exact dictFind?_dictInsert_ne _ _ hx

theorem dictFind?_buildDict_mem {f : String → α} {cols : List String}
    {init : List (String × α)} {k : String} (h : k ∈ cols) :
    dictFind? (buildDict f cols init) k = some (f k) := by
  induction cols generalizing init with
  | nil => simp at h
  | cons x xs ih =>
    by_cases hk : k ∈ xs
    · exact ih hk
    · rcases List.mem_cons.mp h with rfl | hmem
      · show dictFind? (buildDict f xs (dictInsert k (f k) init)) k = some (f k)
        rw [dictFind?_buildDict_not_mem hk, dictFind?_dictInsert_self]
      · exact absurd hmem hk

theorem dictInsert_eq_self [DecidableEq κ] {k : κ} {v : α} {d : List (κ × α)}
    (h : dictFind? d k = some v) : dictInsert k v d = d := by
  induction d with
  | nil => simp [dictFind?] at h
  | cons p rest ih =>
    obtain ⟨k0, v0⟩ := p
    by_cases hk : k0 = k
    · subst hk
      have hv : v0 = v := by
        rw [dictFind?, List.find?_cons_of_pos _ (by simp)] at h
        simpa using h
      subst hv
      simp [dictInsert]
    · rw [dictFind?, List.find?_cons_of_neg _ (by simpa using hk)] at h
      rw [dictInsert, if_neg hk, ih h]

theorem buildDict_filter_dup {f : String → α} {bs : List String} {c : String}
    {d : List (String × α)} (h : dictFind? d c = some (f c)) :
    buildDict f bs d = buildDict f (bs.filter (fun x => x ≠ c)) d := by
  induction bs generalizing d with
  | nil => rfl
  | cons x xs ih =>
    by_cases hx : x = c
    · subst hx
      show buildDict f xs (dictInsert x (f x) d)
          = buildDict f ((x :: xs).filter (fun y => y ≠ x)) d
      rw [dictInsert_eq_self h,
        show (x :: xs).filter (fun y => y ≠ x) = xs.filter (fun y => y ≠ x) from by
          simp [List.filter_cons]]
      exact ih h
    · have hcx : c ≠ x := fun he => hx he.symm
      have hfind : dictFind? (dictInsert x (f x) d) c = some (f c) := by
        rw [dictFind?_dictInsert_ne _ _ hcx]
        exact h
      show buildDict f xs (dictInsert x (f x) d)
          = buildDict f ((x :: xs).filter (fun y => y ≠ c)) d
      rw [show (x :: xs).filter (fun y => y ≠ c) = x :: xs.filter (fun y => y ≠ c) from by
        simp [List.filter_cons, hx]]
      show _ = buildDict f (xs.filter (fun y => y ≠ c)) (dictInsert x (f x) d)
      exact ih hfind

theorem buildDict_append_dup {f : String → α} {as bs : List String} {c : String}
    (hc : c ∈ as) :
    buildDict f (as ++ bs) [] = buildDict f (as ++ bs.filter (fun x => x ≠ c)) [] := by
  rw [buildDict, buildDict, List.foldl_append, List.foldl_append]
  exact buildDict_filter_dup (dictFind?_buildDict_mem hc)

theorem filter_swap (p q : α → Bool) (l : List α) :
    (l.filter q).filter p = (l.filter p).filter q := by
  induction l with
  | nil => rfl
  | cons a l ih =>
    by_cases hq : q a <;> by_cases hp : p a <;>
      simp [List.filter_cons, hq, hp, ih]

theorem merged_eq_getD {m : List (String × List String)} {tableName : String} :
    IndexingStrategy.merged tableName m
      = (dictFind? m "*").getD [] ++ (dictFind? m tableName).getD [] := by
  rw [IndexingStrategy.merged]
  cases dictFind? m "*" <;> cases dictFind? m tableName <;> rfl

theorem merged_dictInsert_table {m : List (String × List String)} {tableName : String}
    (hne : tableName ≠ "*") (l : List String) :
    IndexingStrategy.merged tableName (dictInsert tableName l m)
      = (dictFind? m "*").getD [] ++ l := by
  rw [IndexingStrategy.merged, dictFind?_dictInsert_ne _ _ (fun h => hne h.symm),
    dictFind?_dictInsert_self]
  cases dictFind? m "*" <;> rfl

theorem buildDict_merged_dup {f : String → α} {m : List (String × List String)}
    {tableName c : String} {p : String → Bool} (hne : tableName ≠ "*") (hpc : p c = true)
    (hw : c ∈ (dictFind? m "*").getD []) :
    buildDict f ((IndexingStrategy.merged tableName m).filter p) []
      = buildDict f
        ((IndexingStrategy.merged tableName
          (dictInsert tableName
            (((dictFind? m tableName).getD []).filter (fun x => x ≠ c)) m)).filter p) [] := by
  rw [merged_eq_getD, merged_dictInsert_table hne, List.filter_append, List.filter_append,
    filter_swap]
  exact buildDict_append_dup (List.mem_filter.mpr ⟨hw, hpc⟩)

/-- C10: for every strategy listing column `c` both under the wildcard key
and under the table's own key (in the offset and bloom mappings alike, so
`c` appears at least twice in each merged column list), the table gets
exactly one `offset_index` binding and one `bloom_filters` binding for
`c`, and each result is identical to the result for the strategy listing
`c` only once — the same strategy with `c` removed from the per-table
entry, leaving the wildcard listing. -/
theorem duplicate_column_single_entry (hash : String → Nat → Nat)
    (strategy : IndexingStrategy) (frame : Frame) (tableName c : String)
    (hne : tableName ≠ "*") (hc : c ∈ frame.colNames)
    (hwOff : c ∈ (dictFind? strategy.offset_columns "*").getD [])
    (htOff : c ∈ (dictFind? strategy.offset_columns tableName).getD [])
    (hwBloom : c ∈ (dictFind? strategy.bloom_filter_columns "*").getD [])
    (htBloom : c ∈ (dictFind? strategy.bloom_filter_columns tableName).getD []) :
    2 ≤ (strategy.offsetsFor tableName).count c
    ∧ 2 ≤ (strategy.bloomsFor tableName).count c
    ∧ (buildOffsetIndex strategy frame tableName).countP (fun p => p.1 = c) = 1
    ∧ (buildBloomFilters hash strategy frame tableName).countP (fun p => p.1 = c) = 1
    ∧ buildOffsetIndex strategy frame tableName
      = buildOffsetIndex
        { strategy with offset_columns :=
            (dictInsert tableName
              (((dictFind? strategy.offset_columns tableName).getD []).filter
                (fun x => x ≠ c))
              strategy.offset_columns) }
        frame tableName
    ∧ buildBloomFilters hash strategy frame tableName
      = buildBloomFilters hash
        { strategy with bloom_filter_columns :=
            (dictInsert tableName
              (((dictFind? strategy.bloom_filter_columns tableName).getD []).filter
                (fun x => x ≠ c))
              strategy.bloom_filter_columns) }
        frame tableName := by
  refine ⟨?_, ?_, ?_, ?_, ?_, ?_⟩
  · rw [IndexingStrategy.offsetsFor, merged_eq_getD, List.count_append]
    have h1 := List.count_pos_iff.mpr hwOff
    have h2 := List.count_pos_iff.mpr htOff
    omega
  · rw [IndexingStrategy.bloomsFor, merged_eq_getD, List.count_append]
    have h1 := List.count_pos_iff.mpr hwBloom
    have h2 := List.count_pos_iff.mpr htBloom
    omega
  · simp only [buildOffsetIndex]
    refine countP_buildDict_nil (List.mem_filter.mpr ⟨?_, by simpa using hc⟩)
    simp only [IndexingStrategy.offsetsFor]
    exact mem_merged_iff.mpr (Or.inl hwOff)
  · simp only [buildBloomFilters]
    refine countP_buildDict_nil (List.mem_filter.mpr ⟨?_, by simpa using hc⟩)
    simp only [IndexingStrategy.bloomsFor]
    exact mem_merged_iff.mpr (Or.inl hwBloom)
  · simp only [buildOffsetIndex, IndexingStrategy.offsetsFor]
    exact buildDict_merged_dup hne (by simpa using hc) hwOff
  · simp only [buildBloomFilters, IndexingStrategy.bloomsFor]
    exact buildDict_merged_dup hne (by simpa using hc) hwBloom

/-- Witness for C10: a strategy listing `a` under both the wildcard key
(alongside another column `b`) and the table's own key; removing `a` from
the per-table entry leaves the result unchanged. -/
theorem duplicate_column_single_entry_witness :
    ("rounds" : String) ≠ "*"
    ∧ "a" ∈ Frame.colNames ⟨[⟨"a", .int64, [.int 7]⟩, ⟨"b", .int64, [.int 8]⟩]⟩
    ∧ "a" ∈ (dictFind? [("*", ["b", "a"]), ("rounds", ["a"])] "*").getD []
    ∧ "a" ∈ (dictFind? [("*", ["b", "a"]), ("rounds", ["a"])] "rounds").getD []
    ∧ 2 ≤ ((⟨[("*", ["b", "a"]), ("rounds", ["a"])],
          [("*", ["b", "a"]), ("rounds", ["a"])], true⟩ :
            IndexingStrategy).offsetsFor "rounds").count "a"
    ∧ 2 ≤ ((⟨[("*", ["b", "a"]), ("rounds", ["a"])],
          [("*", ["b", "a"]), ("rounds", ["a"])], true⟩ :
            IndexingStrategy).bloomsFor "rounds").count "a"
    ∧ (buildOffsetIndex
        ⟨[("*", ["b", "a"]), ("rounds", ["a"])],
          [("*", ["b", "a"]), ("rounds", ["a"])], true⟩
        ⟨[⟨"a", .int64, [.int 7]⟩, ⟨"b", .int64, [.int 8]⟩]⟩ "rounds").countP
        (fun p => p.1 = "a") = 1
    ∧ (buildBloomFilters sampleHash
        ⟨[("*", ["b", "a"]), ("rounds", ["a"])],
          [("*", ["b", "a"]), ("rounds", ["a"])], true⟩
        ⟨[⟨"a", .int64, [.int 7]⟩, ⟨"b", .int64, [.int 8]⟩]⟩ "rounds").countP
        (fun p => p.1 = "a") = 1
    ∧ buildOffsetIndex
        ⟨[("*", ["b", "a"]), ("rounds", ["a"])],
          [("*", ["b", "a"]), ("rounds", ["a"])], true⟩
        ⟨[⟨"a", .int64, [.int 7]⟩, ⟨"b", .int64, [.int 8]⟩]⟩ "rounds"
      = buildOffsetIndex
        ⟨[("*", ["b", "a"]), ("rounds", [])],
          [("*", ["b", "a"]), ("rounds", ["a"])], true⟩
        ⟨[⟨"a", .int64, [.int 7]⟩, ⟨"b", .int64, [.int 8]⟩]⟩ "rounds"
    ∧ buildBloomFilters sampleHash
        ⟨[("*", ["b", "a"]), ("rounds", ["a"])],
          [("*", ["b", "a"]), ("rounds", ["a"])], true⟩
        ⟨[⟨"a", .int64, [.int 7]⟩, ⟨"b", .int64, [.int 8]⟩]⟩ "rounds"
      = buildBloomFilters sampleHash
        ⟨[("*", ["b", "a"]), ("rounds", ["a"])],
          [("*", ["b", "a"]), ("rounds", [])], true⟩
        ⟨[⟨"a", .int64, [.int 7]⟩, ⟨"b", .int64, [.int 8]⟩]⟩ "rounds" := by
  have h := duplicate_column_single_entry sampleHash
    ⟨[("*", ["b", "a"]), ("rounds", ["a"])], [("*", ["b", "a"]), ("rounds", ["a"])], true⟩
    ⟨[⟨"a", .int64, [.int 7]⟩, ⟨"b", .int64, [.int 8]⟩]⟩ "rounds" "a"
    (by decide) (by decide) (by decide) (by decide) (by decide) (by decide)
  exact ⟨by decide, by decide, by decide, by decide, h.1, h.2.1, h.2.2.1, h.2.2.2.1,
    h.2.2.2.2.1, h.2.2.2.2.2⟩

/-- C2: two `build_manifest` calls over the same tree and strategy agree on
`datasets` (hence on every per-table `schema`, `stats`, `offset_index`,
`bloom_filters` and on dataset ordering) and on `dataset_count`; only the
`generated_at` stamp follows the wall clock, which the embedding passes
explicitly. The hash parameter is the same fixed BLAKE2b on both calls,
and no other input varies. -/
theorem build_manifest_deterministic (hash : String → Nat → Nat) (now1 now2 : String)
    (layout : ProcessedLayout) (strategy : IndexingStrategy) (tree : RootTree) :
    (buildManifest hash now1 layout strategy tree).datasets
      = (buildManifest hash now2 layout strategy tree).datasets
    ∧ (buildManifest hash now1 layout strategy tree).dataset_count
      = (buildManifest hash now2 layout strategy tree).dataset_count
    ∧ (buildManifest hash now1 layout strategy tree).generated_at = now1 :=
  ⟨rfl, rfl, rfl⟩

/-- C1: `write_manifest` serialises the manifest built by `build_manifest`,
overwrites the file at the resolver's fixed global path
`root/_manifest.json` (any previous binding of that path is replaced,
other files untouched), and returns that path. -/
theorem write_manifest_overwrites_global (hash : String → Nat → Nat) (now : String)
    (layout : ProcessedLayout) (strategy : IndexingStrategy) (tree : RootTree)
    (dirs : DirState) (files : FileState) :
    (writeManifest hash now layout strategy tree dirs files).1 = layout.globalManifestPath
    ∧ layout.globalManifestPath = layout.root ++ ["_manifest.json"]
    ∧ dictFind? (writeManifest hash now layout strategy tree dirs files).2.2
        layout.globalManifestPath = some (buildManifest hash now layout strategy tree)
    ∧ ∀ q, q ≠ layout.globalManifestPath →
        dictFind? (writeManifest hash now layout strategy tree dirs files).2.2 q
          = dictFind? files q :=
  ⟨rfl, rfl, dictFind?_dictInsert_self _ _ _, fun _ hq => dictFind?_dictInsert_ne _ _ hq⟩

/-- Witness for C1: concrete overwrite of the global manifest path,
leaving an unrelated path's content unchanged. -/
theorem write_manifest_overwrites_global_witness :
    (writeManifest sampleHash "t0" (mkLayout ["root"]) ⟨[], [], true⟩ ⟨[]⟩ [] []).1
      = (mkLayout ["root"]).globalManifestPath
    ∧ dictFind? (writeManifest sampleHash "t0" (mkLayout ["root"]) ⟨[], [], true⟩ ⟨[]⟩ [] []).2.2
        (mkLayout ["root"]).globalManifestPath
      = some (buildManifest sampleHash "t0" (mkLayout ["root"]) ⟨[], [], true⟩ ⟨[]⟩)
    ∧ ["other"] ≠ (mkLayout ["root"]).globalManifestPath
    ∧ dictFind?
        (writeManifest sampleHash "t0" (mkLayout ["root"]) ⟨[], [], true⟩ ⟨[]⟩ [] []).2.2
        ["other"]
      = dictFind? ([] : FileState) ["other"] := by
  have h := write_manifest_overwrites_global sampleHash "t0" (mkLayout ["root"])
    ⟨[], [], true⟩ ⟨[]⟩ [] []
  exact ⟨h.1, h.2.2.1, by decide, h.2.2.2 ["other"] (by decide)⟩

/-! ### Skipping demo directories (claim C6) -/

theorem demo_stem_of_summarise {hash : String → Nat → Nat} {strategy : IndexingStrategy}
    {layout : ProcessedLayout} {d : DemoDir} {r : DatasetRecord}
    (h : summariseDemoDir? hash strategy layout d = some r) : r.demo_stem = d.name := by
  simp only [summariseDemoDir?] at h
  by_cases h1 : d.hasTablesDir
  · rw [if_pos h1] at h
    by_cases h2 : ((sortLe tableFileLe d.tables).map
        (summariseTable hash strategy layout d.name)).isEmpty
    · rw [if_pos h2] at h
      cases h
    · rw [if_neg h2] at h
      have h3 := Option.some.inj h
      subst h3
      rfl
  · rw [if_neg h1] at h
    cases h

theorem summarise_empty_none {hash : String → Nat → Nat} {strategy : IndexingStrategy}
    {layout : ProcessedLayout} {d : DemoDir} (ht : d.hasTablesDir = true)
    (he : d.tables = []) : summariseDemoDir? hash strategy layout d = none := by
  simp [summariseDemoDir?, ht, he, sortLe]

/-- C6: a demo directory whose `tables` subdirectory exists but holds zero
table files contributes no record to `datasets` (no record carries its
stem), and `dataset_count` is the number of records actually emitted, not
the number of entries scanned. -/
theorem empty_tables_dir_skipped (hash : String → Nat → Nat) (now : String)
    (layout : ProcessedLayout) (strategy : IndexingStrategy) (tree : RootTree) (d : DemoDir)
    (hnodup : (tree.entries.map RootEntry.name).Nodup)
    (hd : RootEntry.dir d ∈ tree.entries)
    (ht : d.hasTablesDir = true) (hempty : d.tables = []) :
    (∀ r ∈ (buildManifest hash now layout strategy tree).datasets, r.demo_stem ≠ d.name)
    ∧ (buildManifest hash now layout strategy tree).dataset_count
      = (buildManifest hash now layout strategy tree).datasets.length := by
  refine ⟨?_, rfl⟩
  intro r hr hdsname
  simp only [buildManifest] at hr
  obtain ⟨e, he, hsome⟩ := List.mem_filterMap.mp hr
  cases e with
  | file n => simp at hsome
  | dir d' =>
    have hsome' : summariseDemoDir? hash strategy layout d' = some r := hsome
    have hstem : r.demo_stem = d'.name := demo_stem_of_summarise hsome'
    have hname : d'.name = d.name := by rw [← hstem, hdsname]
    have hd' : RootEntry.dir d' ∈ tree.entries :=
      (perm_sortLe rootEntryLe tree.entries).mem_iff.mp he
    have heq : RootEntry.dir d' = RootEntry.dir d :=
      List.inj_on_of_nodup_map hnodup hd' hd (by simpa [RootEntry.name] using hname)
    injection heq with heq'
    subst heq'
    rw [summarise_empty_none ht hempty] at hsome'
    cases hsome'

/-- Witness for C6: a root holding one demo directory with an empty
`tables/` next to one fully ingested demo. -/
theorem empty_tables_dir_skipped_witness :
    ((RootTree.mk [.dir ⟨"empty", true, [], false⟩,
        .dir ⟨"full", true, [⟨"t", 5, ⟨[⟨"a", .int64, [.int 1]⟩]⟩⟩], false⟩]).entries.map
      RootEntry.name).Nodup
    ∧ RootEntry.dir ⟨"empty", true, [], false⟩ ∈
        (RootTree.mk [.dir ⟨"empty", true, [], false⟩,
          .dir ⟨"full", true, [⟨"t", 5, ⟨[⟨"a", .int64, [.int 1]⟩]⟩⟩], false⟩]).entries
    ∧ (∀ r ∈ (buildManifest sampleHash "t0" (mkLayout ["root"]) ⟨[], [], true⟩
          (RootTree.mk [.dir ⟨"empty", true, [], false⟩,
            .dir ⟨"full", true, [⟨"t", 5, ⟨[⟨"a", .int64, [.int 1]⟩]⟩⟩], false⟩])).datasets,
        r.demo_stem ≠ "empty")
    ∧ (buildManifest sampleHash "t0" (mkLayout ["root"]) ⟨[], [], true⟩
        (RootTree.mk [.dir ⟨"empty", true, [], false⟩,
          .dir ⟨"full", true, [⟨"t", 5, ⟨[⟨"a", .int64, [.int 1]⟩]⟩⟩], false⟩])).dataset_count
      = (buildManifest sampleHash "t0" (mkLayout ["root"]) ⟨[], [], true⟩
        (RootTree.mk [.dir ⟨"empty", true, [], false⟩,
          .dir ⟨"full", true, [⟨"t", 5, ⟨[⟨"a", .int64, [.int 1]⟩]⟩⟩], false⟩])).datasets.length := by
  have h := empty_tables_dir_skipped sampleHash "t0" (mkLayout ["root"]) ⟨[], [], true⟩
    (RootTree.mk [.dir ⟨"empty", true, [], false⟩,
      .dir ⟨"full", true, [⟨"t", 5, ⟨[⟨"a", .int64, [.int 1]⟩]⟩⟩], false⟩])
    ⟨"empty", true, [], false⟩ (by decide) (by decide) (by decide) (by decide)
  exact ⟨by decide, by decide, h.1, h.2⟩

/-! ### Null handling (claim C9) -/

theorem countP_value_map (l : List OffsetEntry) (v : Value) :
    l.countP (fun e => e.value = v) = (l.map (·.value)).count v := by
  induction l with
  | nil => rfl
  | cons e rest ih =>
    rw [List.countP_cons, List.map_cons, List.count_cons, ih]
    by_cases h : e.value = v
    · simp [h]
    · simp [h, Ne.symm h]

/-- C9: an offset-indexed column containing nulls gets exactly one entry
with value null whose positions are exactly the null rows; by contrast the
bloom filter for any column is built from the column's non-null values
only (nulls are dropped before hashing). -/
theorem null_rows_indexed_not_hashed (hash : String → Nat → Nat) (strategy : IndexingStrategy)
    (frame : Frame) (tableName c : String) (entries : List OffsetEntry)
    (hmem : (c, entries) ∈ buildOffsetIndex strategy frame tableName)
    (hnull : Value.null ∈ frame.colValues c) :
    (∃ e ∈ entries, e.value = Value.null ∧
        e.positions = (List.range (frame.colValues c).length).filter
          (fun i => (frame.colValues c).getD i Value.null = Value.null))
    ∧ entries.countP (fun e => e.value = Value.null) = 1
    ∧ ∀ c' bf, (c', bf) ∈ buildBloomFilters hash strategy frame tableName →
        bf = createBloomFilter hash
          ((frame.colValues c').filter (fun v => v ≠ Value.null))
          defaultNumBits defaultHashCount := by
  simp only [buildOffsetIndex] at hmem
  obtain ⟨-, rfl⟩ := mem_buildDict_nil_iff.mp hmem
  have e0mem : (⟨Value.null, positionsOf Value.null (frame.colValues c)⟩ : OffsetEntry)
      ∈ groupPositions (frame.colValues c) :=
    mem_groupPositions_iff.mpr ⟨hnull, rfl⟩
  refine ⟨⟨_, e0mem, rfl, rfl⟩, ?_, ?_⟩
  · rw [countP_value_map]
    exact List.count_eq_one_of_mem (nodup_groupPositions_values _)
      (List.mem_map.mpr ⟨_, e0mem, rfl⟩)
  · intro c' bf hbf
    simp only [buildBloomFilters] at hbf
    obtain ⟨-, rfl⟩ := mem_buildDict_nil_iff.mp hbf
    rfl

/-- Witness for C9 on a column holding one null among integers. -/
theorem null_rows_indexed_not_hashed_witness :
    (("a", groupPositions [Value.int 1, Value.null]) ∈
        buildOffsetIndex ⟨[("t", ["a"])], [("t", ["a"])], true⟩
          ⟨[⟨"a", .int64, [.int 1, .null]⟩]⟩ "t")
    ∧ Value.null ∈ Frame.colValues ⟨[⟨"a", .int64, [.int 1, .null]⟩]⟩ "a"
    ∧ ((∃ e ∈ groupPositions [Value.int 1, Value.null], e.value = Value.null ∧
          e.positions = (List.range
              (Frame.colValues ⟨[⟨"a", .int64, [.int 1, .null]⟩]⟩ "a").length).filter
            (fun i => (Frame.colValues ⟨[⟨"a", .int64, [.int 1, .null]⟩]⟩ "a").getD i
              Value.null = Value.null))
      ∧ (groupPositions [Value.int 1, Value.null]).countP
          (fun e => e.value = Value.null) = 1
      ∧ ∀ c' bf, (c', bf) ∈ buildBloomFilters sampleHash
            ⟨[("t", ["a"])], [("t", ["a"])], true⟩ ⟨[⟨"a", .int64, [.int 1, .null]⟩]⟩ "t" →
          bf = createBloomFilter sampleHash
            ((Frame.colValues ⟨[⟨"a", .int64, [.int 1, .null]⟩]⟩ c').filter
              (fun v => v ≠ Value.null)) defaultNumBits defaultHashCount) :=
  ⟨by decide, by decide,
    null_rows_indexed_not_hashed sampleHash ⟨[("t", ["a"])], [("t", ["a"])], true⟩
      ⟨[⟨"a", .int64, [.int 1, .null]⟩]⟩ "t" "a"
      (groupPositions [Value.int 1, Value.null]) (by decide) (by decide)⟩

/-! ### Layout resolver side effects (claim C7) -/

/-- C7 counterexample: on a filesystem holding only the processed root,
`metadata_path("m")` brings the directory `root/m` into existence and
`table_path("m", "t")` additionally `root/m/tables` — the directory set is
not unchanged, because both route through `demo_dir`/`tables_dir`, which
`mkdir` with `exist_ok=True`. -/
theorem layout_path_counterexample :
    ((mkLayout ["root"]).metadataPath [["root"]] "m").2 ≠ [["root"]]
    ∧ ["root", "m"] ∈ ((mkLayout ["root"]).metadataPath [["root"]] "m").2
    ∧ ["root", "m"] ∉ ([["root"]] : DirState)
    ∧ ["root", "m", "tables"] ∈ ((mkLayout ["root"]).tablePath [["root"]] "m" "t").2
    ∧ ["root", "m", "tables"] ∉ ([["root"]] : DirState) := by
  decide

/-- C7 amended: `table_path` and `metadata_path` return the documented
paths `root/id/tables/name.parquet` and `root/id/metadata.json`, but both
create directories as a side effect of the `tables_dir`/`demo_dir` calls
they make: afterwards the directory set is the old set plus the prefixes
of `root/id/tables` (for `table_path`) or of `root/id` (for
`metadata_path`). -/
theorem layout_paths_amended (L : ProcessedLayout) (s : DirState) (stem tableName : String) :
    (L.tablePath s stem tableName).1
      = L.root ++ [stem, L.tables_dirname, tableName ++ ".parquet"]
    ∧ (L.metadataPath s stem).1 = L.root ++ [stem, L.metadata_filename]
    ∧ (∀ q, q ∈ (L.tablePath s stem tableName).2 ↔
        q ∈ s ∨ q ∈ prefixesOf (L.tablesDirPath stem))
    ∧ (∀ q, q ∈ (L.metadataPath s stem).2 ↔
        q ∈ s ∨ q ∈ prefixesOf (L.demoDirPath stem)) := by
  refine ⟨?_, ?_, ?_, ?_⟩
  · show (L.demoDirPath stem ++ [L.tables_dirname]) ++ [tableName ++ ".parquet"] = _
    simp [ProcessedLayout.demoDirPath]
  · show L.demoDirPath stem ++ [L.metadata_filename] = _
    simp [ProcessedLayout.demoDirPath]
  · intro q
    show q ∈ mkdirParents (mkdirParents s (L.demoDirPath stem))
        (L.demoDirPath stem ++ [L.tables_dirname]) ↔ _
    rw [mem_mkdirParents, mem_mkdirParents]
    constructor
    · rintro ((h | h) | h)
      · exact Or.inl h
      · exact Or.inr (prefixesOf_append_singleton h)
      · exact Or.inr h
    · rintro (h | h)
      · exact Or.inl (Or.inl h)
      · exact Or.inr h
  · intro q
    show q ∈ mkdirParents s (L.demoDirPath stem) ↔ _
    exact mem_mkdirParents

end CS2
